import Mathlib

/-!
# Jellyfish bit streams (`jellyfish/bstream.hpp`)

A shallow embedding of the two class templates `obstream<word>` and
`ibstream<word>`.

* The template parameter `word` appears only through
  `bword = sizeof(word) * 8`, its width in bits.  Every operation below takes
  `bword` as its first argument; a `word` value is a natural number below
  `2 ^ bword`, and a result assigned to a `word` is reduced modulo `2 ^ bword`.
* `size_t` is the 64 bit unsigned type: `boff`, `bleft`, `len` and `used`
  are natural numbers below `2 ^ 64`, and `+`, `-` on them wrap around.
  `bword` is itself a `size_t` constant; the theorems take `0 < bword` and
  `bword ≤ 2 ^ 63`, so that `boff + len` cannot wrap within the contract
  `len <= bword`.
* `w << boff` is the mathematical shift; the result is cut to the word when it
  is stored (C++ leaves a shift by `boff >= bword` undefined; that only arises
  outside the invariant `boff < bword`).
* `std::ostream` is the list of words written so far, `std::istream` the list
  of words not yet extracted together with its failure flag.
* The function-local `static size_t written` / `_read` counters are only ever
  incremented and never read; they are left out.
-/

namespace jellyfish

/-! ## `size_t` arithmetic -/

/-- The number of values of `size_t`. -/
def size_t_mod : Nat := 2 ^ 64

/-- Addition on `size_t` (wraps around). -/
def size_t_add (a b : Nat) : Nat := (a + b) % size_t_mod

/-- Subtraction on `size_t` (wraps around); both arguments are below `size_t_mod`. -/
def size_t_sub (a b : Nat) : Nat := (a + size_t_mod - b) % size_t_mod

/-! ## Helpers that live outside this header -/

/-- Modelled from the spec: `bitmask<word>(n)` is declared in another header.
The spec describes it as "lowest `n` bits set", with the full width `n == B`
special-cased to "mask everything" rather than shifting by the word width.
For `n > B` the spec is silent; the model saturates at all ones. -/
def bitmask (bword n : Nat) : Nat :=
  if bword ≤ n then 2 ^ bword - 1 else 2 ^ n - 1

/-- Modelled from the spec: `rshift(w, n)` is declared in another header.
The spec describes it as a logical right shift by `n` in which a shift by the
full word width is special-cased ("carry nothing") and yields `0`. -/
def rshift (bword w n : Nat) : Nat :=
  if bword ≤ n then 0 else w >>> n

/-! ## Streams -/

/-- Contents of a `std::istream` that delivers whole words: the words not yet
extracted, and the stream's failure flag (`fail()`). -/
structure istream where
  words : List Nat
  fail : Bool
deriving DecidableEq

/-- Modelled from the spec: `is_->read((char*)&buffer, sizeof(word))`, the byte
source's single operation, "read the next `B/8`-byte block ... or signal
exhaustion/failure if fewer bytes remain than requested".  Returns the new
stream and the new content of `buffer`; when nothing can be extracted the
failure flag is raised and `buffer` keeps its old content. -/
def istream.read (is : istream) (buffer : Nat) : istream × Nat :=
  if is.fail then (is, buffer)
  else
    match is.words with
    | [] => ({ words := [], fail := true }, buffer)
    | x :: rest => ({ words := rest, fail := false }, x)

/-! ## `obstream` -/

/-- State of an `obstream<word>`: the words written to `*os_` so far (oldest
first), `boff` and `buffer`. -/
structure obstream where
  os : List Nat
  boff : Nat
  buffer : Nat
deriving DecidableEq

/-- Constructor `obstream(std::ostream& os)`, on an empty sink. -/
def obstream.mk0 : obstream := { os := [], boff := 0, buffer := 0 }

/-- Member `obstream::write(word w, size_t len)`. -/
def obstream.write (bword : Nat) (s : obstream) (w len : Nat) : obstream :=
  let w := w &&& bitmask bword len
  let buffer := (s.buffer ||| (w <<< s.boff)) % 2 ^ bword
  let boff := size_t_add s.boff len
  if bword ≤ boff then
    let os := s.os ++ [buffer]
    let boff := size_t_sub boff bword
    let buffer := rshift bword w (size_t_sub len boff)
    { os := os, boff := boff, buffer := buffer }
  else
    { os := s.os, boff := boff, buffer := buffer }

/-- Member `obstream::align()`. -/
def obstream.align (s : obstream) : obstream :=
  if 0 < s.boff then
    { os := s.os ++ [s.buffer], boff := 0, buffer := 0 }
  else s

/-- Member `obstream::close()`. -/
def obstream.close (s : obstream) : obstream := s.align

/-- Member `obstream::byte_align()`. -/
def obstream.byte_align (bword : Nat) (s : obstream) : obstream :=
  let remain := s.boff % 8
  if remain ≠ 0 then
    let boff := size_t_add s.boff (size_t_sub 8 remain)
    if boff = bword then
      { os := s.os ++ [s.buffer], boff := 0, buffer := 0 }
    else
      { os := s.os, boff := boff, buffer := s.buffer }
  else s

/-- Member `obstream::one_pad()`. -/
def obstream.one_pad (bword : Nat) (s : obstream) : obstream :=
  if 0 < s.boff then
    let buffer := (s.buffer ||| (bitmask bword bword <<< s.boff)) % 2 ^ bword
    { os := s.os ++ [buffer], boff := 0, buffer := 0 }
  else s

/-! ## `ibstream` -/

/-- State of an `ibstream<word>`: the stream `*is_`, `bleft` and `buffer`. -/
structure ibstream where
  is : istream
  bleft : Nat
  buffer : Nat
deriving DecidableEq

/-- Constructor `ibstream(std::istream& is)` over a source holding `ws`. -/
def ibstream.mk0 (ws : List Nat) : ibstream :=
  { is := { words := ws, fail := false }, bleft := 0, buffer := 0 }

/-- Accessor `ibstream::stream()`. -/
def ibstream.stream (r : ibstream) : istream := r.is

/-- Member `ibstream::read(size_t len)`: the new state and the returned word. -/
def ibstream.read (bword : Nat) (r : ibstream) (len : Nat) : ibstream × Nat :=
  let res := r.buffer
  if r.bleft < len then
    let (is, buffer) := r.is.read r.buffer
    let used := size_t_sub len r.bleft
    let res := (res ||| (buffer <<< r.bleft)) % 2 ^ bword
    let bleft := size_t_sub bword used
    let buffer := rshift bword buffer used
    ({ is := is, bleft := bleft, buffer := buffer }, res &&& bitmask bword len)
  else
    let buffer := rshift bword r.buffer len
    let bleft := size_t_sub r.bleft len
    ({ is := r.is, bleft := bleft, buffer := buffer }, res &&& bitmask bword len)

/-- Member `ibstream::align()`. -/
def ibstream.align (r : ibstream) : ibstream := { r with bleft := 0 }

/-! ## Call sequences -/

/-- The calls `write(v_0, len_0); write(v_1, len_1); ...` in order. -/
def obstream.write_all (bword : Nat) (s : obstream) : List (Nat × Nat) → obstream
  | [] => s
  | (v, len) :: ps => obstream.write_all bword (s.write bword v len) ps

/-- The calls `read(len_0); read(len_1); ...` in order: the final state and the
returned words. -/
def ibstream.read_all (bword : Nat) (r : ibstream) : List Nat → ibstream × List Nat
  | [] => (r, [])
  | len :: ls =>
    let (r1, x) := r.read bword len
    let (r2, xs) := ibstream.read_all bword r1 ls
    (r2, x :: xs)

/-- The number denoted by a sequence of words, least significant word first:
`w_0 + w_1 * 2^B + w_2 * 2^(2B) + ...`. -/
def word_value (bword : Nat) : List Nat → Nat
  | [] => 0
  | w :: ws => w + 2 ^ bword * word_value bword ws

/-! ## Invariants and reference values -/

/-- The writer's class invariant: `boff < bword`, every bit of `buffer` at a
position `>= boff` is zero, and the sink holds words. -/
def obstream.inv (bword : Nat) (s : obstream) : Prop :=
  s.boff < bword ∧ s.buffer < 2 ^ s.boff ∧ ∀ w ∈ s.os, w < 2 ^ bword

/-- The bits handed to the writer so far, as one number: the emitted words
followed by the pending `buffer`. -/
def obstream.value (bword : Nat) (s : obstream) : Nat :=
  word_value bword s.os + 2 ^ (bword * s.os.length) * s.buffer

/-- The number of bits handed to the writer so far. -/
def obstream.bits (bword : Nat) (s : obstream) : Nat :=
  bword * s.os.length + s.boff

/-- Writer states reachable from a freshly constructed writer through the
public members, `write` being called within its contract `len <= bword`. -/
inductive obstream.Reachable (bword : Nat) : obstream → Prop
  | fresh : obstream.Reachable bword obstream.mk0
  | write (s : obstream) (w len : Nat) : obstream.Reachable bword s → len ≤ bword →
      obstream.Reachable bword (s.write bword w len)
  | align (s : obstream) : obstream.Reachable bword s → obstream.Reachable bword s.align
  | close (s : obstream) : obstream.Reachable bword s → obstream.Reachable bword s.close
  | byte_align (s : obstream) : obstream.Reachable bword s →
      obstream.Reachable bword (s.byte_align bword)
  | one_pad (s : obstream) : obstream.Reachable bword s →
      obstream.Reachable bword (s.one_pad bword)

/-- The reader's invariant on a healthy stream: `bleft < bword`, `buffer` holds
only `bleft` bits, the stream has not failed and delivers words. -/
def ibstream.inv (bword : Nat) (r : ibstream) : Prop :=
  r.bleft < bword ∧ r.buffer < 2 ^ r.bleft ∧ r.is.fail = false ∧
    ∀ w ∈ r.is.words, w < 2 ^ bword

/-- The bits not yet returned by the reader, as one number: the buffered bits
followed by the words still in the source. -/
def ibstream.pending (bword : Nat) (r : ibstream) : Nat :=
  r.buffer + 2 ^ r.bleft * word_value bword r.is.words

/-- The number of bits not yet returned by the reader. -/
def ibstream.avail (bword : Nat) (r : ibstream) : Nat :=
  r.bleft + bword * r.is.words.length

/-- Reference layout of a sequence of fields `(v_i, len_i)`: field `i`, cut
to its low `len_i` bits, sits right above the fields before it. -/
def packed : List (Nat × Nat) → Nat
  | [] => 0
  | (v, len) :: ps => v % 2 ^ len + 2 ^ len * packed ps

/-- Reference reader: cut `n` into consecutive fields of the given widths,
lowest field first. -/
def fields (n : Nat) : List Nat → List Nat
  | [] => []
  | len :: ls => n % 2 ^ len :: fields (n / 2 ^ len) ls

/-! ## Arithmetic of the model -/

theorem size_t_add_eq {a b : Nat} (h : a + b < 2 ^ 64) : size_t_add a b = a + b := by
  unfold size_t_add size_t_mod
  exact Nat.mod_eq_of_lt h

theorem size_t_sub_eq {a b : Nat} (hb : b ≤ a) (ha : a < 2 ^ 64) : size_t_sub a b = a - b := by
  unfold size_t_sub size_t_mod
  have : a + 2 ^ 64 - b = (a - b) + 2 ^ 64 := by omega
  rw [this, Nat.add_mod_right]
  exact Nat.mod_eq_of_lt (by omega)

theorem and_bitmask {bword len : Nat} (v : Nat) (h : len ≤ bword) :
    v &&& bitmask bword len = v % 2 ^ len := by
  unfold bitmask
  split
  · have : len = bword := by omega
    subst this
    exact Nat.and_pow_two_sub_one_eq_mod v len
  · exact Nat.and_pow_two_sub_one_eq_mod v len

theorem rshift_eq {bword w : Nat} (n : Nat) (h : w < 2 ^ bword) :
    rshift bword w n = w / 2 ^ n := by
  unfold rshift
  split
  · rename_i hn
    symm
    apply Nat.div_eq_of_lt
    exact lt_of_lt_of_le h (Nat.pow_le_pow_right (by decide) hn)
  · exact Nat.shiftRight_eq_div_pow w n

theorem lor_shiftLeft {a k : Nat} (w : Nat) (h : a < 2 ^ k) :
    a ||| (w <<< k) = a + 2 ^ k * w := by
  rw [Nat.shiftLeft_eq, Nat.lor_comm, Nat.mul_comm w, ← Nat.mul_add_lt_is_or h, Nat.add_comm]

theorem add_shift_div {a k n : Nat} (w : Nat) (h : a < 2 ^ k) (hk : k ≤ n) :
    (a + 2 ^ k * w) / 2 ^ n = w / 2 ^ (n - k) := by
  have hn : 2 ^ n = 2 ^ k * 2 ^ (n - k) := by
    rw [← Nat.pow_add]; congr 1; omega
  rw [hn, ← Nat.div_div_eq_div_mul, Nat.add_mul_div_left _ _ (Nat.two_pow_pos k),
    Nat.div_eq_of_lt h, Nat.zero_add]

theorem add_shift_lt {a k n : Nat} {w : Nat} (h : a < 2 ^ k) (hw : w < 2 ^ n) :
    a + 2 ^ k * w < 2 ^ (k + n) := by
  have h1 : 2 ^ k * (w + 1) ≤ 2 ^ k * 2 ^ n := Nat.mul_le_mul_left _ hw
  rw [Nat.pow_add]
  have h2 : 2 ^ k * (w + 1) = 2 ^ k * w + 2 ^ k := by ring
  omega

/-! ## One call of `write` -/

theorem mod_two_pow_lt_word {bword len : Nat} (v : Nat) (h : len ≤ bword) :
    v % 2 ^ len < 2 ^ bword :=
  lt_of_lt_of_le (Nat.mod_lt _ (Nat.two_pow_pos len)) (Nat.pow_le_pow_right (by decide) h)

theorem write_emit {bword : Nat} {s : obstream} (v : Nat) {len : Nat} (hB : bword ≤ 2 ^ 63)
    (hoff : s.boff < bword) (hbuf : s.buffer < 2 ^ s.boff) (hlen : len ≤ bword)
    (h : bword ≤ s.boff + len) :
    s.write bword v len =
      { os := s.os ++ [(s.buffer + 2 ^ s.boff * (v % 2 ^ len)) % 2 ^ bword],
        boff := s.boff + len - bword,
        buffer := v % 2 ^ len / 2 ^ (bword - s.boff) } := by
  have h64 : s.boff + len < 2 ^ 64 := by omega
  have h1 : size_t_sub (s.boff + len) bword = s.boff + len - bword := size_t_sub_eq h h64
  have h2 : size_t_sub len (s.boff + len - bword) = bword - s.boff := by
    rw [size_t_sub_eq (by omega) (by omega)]; omega
  unfold obstream.write
  simp only [and_bitmask v hlen, lor_shiftLeft _ hbuf, size_t_add_eq h64, if_pos h, h1, h2,
    rshift_eq _ (mod_two_pow_lt_word v hlen)]

theorem write_keep {bword : Nat} {s : obstream} (v : Nat) {len : Nat} (hB : bword ≤ 2 ^ 63)
    (hbuf : s.buffer < 2 ^ s.boff) (h : s.boff + len < bword) :
    s.write bword v len =
      { os := s.os, boff := s.boff + len, buffer := s.buffer + 2 ^ s.boff * (v % 2 ^ len) } := by
  have h64 : s.boff + len < 2 ^ 64 := by omega
  have hlen : len ≤ bword := by omega
  have hlt : s.buffer + 2 ^ s.boff * (v % 2 ^ len) < 2 ^ bword :=
    lt_of_lt_of_le (add_shift_lt hbuf (Nat.mod_lt _ (Nat.two_pow_pos len)))
      (Nat.pow_le_pow_right (by decide) (le_of_lt h))
  unfold obstream.write
  simp only [and_bitmask v hlen, lor_shiftLeft _ hbuf, size_t_add_eq h64, if_neg (not_le.mpr h),
    Nat.mod_eq_of_lt hlt]

theorem word_value_append (bword : Nat) (ws : List Nat) (x : Nat) :
    word_value bword (ws ++ [x]) = word_value bword ws + 2 ^ (bword * ws.length) * x := by
  induction ws with
  | nil => simp [word_value]
  | cons w ws ih =>
    show w + 2 ^ bword * word_value bword (ws ++ [x]) = _
    rw [ih]
    simp only [word_value, List.length_cons, Nat.mul_succ, Nat.pow_add]
    ring

theorem write_inv {bword : Nat} {s : obstream} (v : Nat) {len : Nat} (hB : bword ≤ 2 ^ 63)
    (hs : s.inv bword) (hlen : len ≤ bword) : (s.write bword v len).inv bword := by
  obtain ⟨hoff, hbuf, hos⟩ := hs
  by_cases h : bword ≤ s.boff + len
  · rw [write_emit v hB hoff hbuf hlen h]
    refine ⟨by simp only; omega, ?_, ?_⟩
    · simp only
      have hv : v % 2 ^ len < 2 ^ len := Nat.mod_lt _ (Nat.two_pow_pos len)
      have hsplit : 2 ^ len = 2 ^ (s.boff + len - bword) * 2 ^ (bword - s.boff) := by
        rw [← Nat.pow_add]; congr 1; omega
      rw [Nat.div_lt_iff_lt_mul (Nat.two_pow_pos _), ← hsplit]
      exact hv
    · intro w hw
      simp only [List.mem_append, List.mem_singleton] at hw
      rcases hw with hw | hw
      · exact hos w hw
      · rw [hw]; exact Nat.mod_lt _ (Nat.two_pow_pos bword)
  · have h' : s.boff + len < bword := not_le.mp h
    rw [write_keep v hB hbuf h']
    exact ⟨h', add_shift_lt hbuf (Nat.mod_lt _ (Nat.two_pow_pos len)), hos⟩

theorem write_value {bword : Nat} {s : obstream} (v : Nat) {len : Nat} (hB : bword ≤ 2 ^ 63)
    (hs : s.inv bword) (hlen : len ≤ bword) :
    (s.write bword v len).value bword = s.value bword + 2 ^ s.bits bword * (v % 2 ^ len) := by
  obtain ⟨hoff, hbuf, _⟩ := hs
  by_cases h : bword ≤ s.boff + len
  · rw [write_emit v hB hoff hbuf hlen h]
    simp only [obstream.value, obstream.bits, word_value_append, List.length_append,
      List.length_singleton]
    have hdiv : v % 2 ^ len / 2 ^ (bword - s.boff) =
        (s.buffer + 2 ^ s.boff * (v % 2 ^ len)) / 2 ^ bword :=
      (add_shift_div _ hbuf (le_of_lt hoff)).symm
    have hx := Nat.mod_add_div (s.buffer + 2 ^ s.boff * (v % 2 ^ len)) (2 ^ bword)
    have hp : 2 ^ (bword * (s.os.length + 1)) = 2 ^ (bword * s.os.length) * 2 ^ bword := by
      rw [← Nat.pow_add]; congr 1
    rw [hdiv, hp, Nat.add_assoc, Nat.mul_assoc, ← Nat.mul_add, hx, Nat.pow_add]
    ring
  · have h' : s.boff + len < bword := not_le.mp h
    rw [write_keep v hB hbuf h']
    simp only [obstream.value, obstream.bits, Nat.pow_add]
    ring

theorem write_bits {bword : Nat} {s : obstream} (v : Nat) {len : Nat} (hB : bword ≤ 2 ^ 63)
    (hs : s.inv bword) (hlen : len ≤ bword) :
    (s.write bword v len).bits bword = s.bits bword + len := by
  obtain ⟨hoff, hbuf, _⟩ := hs
  by_cases h : bword ≤ s.boff + len
  · rw [write_emit v hB hoff hbuf hlen h]
    simp only [obstream.bits, List.length_append, List.length_singleton, Nat.mul_add, Nat.mul_one]
    omega
  · have h' : s.boff + len < bword := not_le.mp h
    rw [write_keep v hB hbuf h']
    simp only [obstream.bits]
    omega

/-! ## Sequences of `write`, and `align` / `close` -/

theorem mk0_inv {bword : Nat} (hB0 : 0 < bword) : obstream.mk0.inv bword :=
  ⟨hB0, by simp [obstream.mk0], by simp [obstream.mk0]⟩

theorem write_all_inv {bword : Nat} (hB : bword ≤ 2 ^ 63) (ps : List (Nat × Nat)) :
    ∀ s : obstream, s.inv bword → (∀ p ∈ ps, p.2 ≤ bword) → (s.write_all bword ps).inv bword := by
  induction ps with
  | nil => intro s hs _; exact hs
  | cons p ps ih =>
    intro s hs hlen
    obtain ⟨v, len⟩ := p
    have h1 : len ≤ bword := hlen (v, len) (List.mem_cons_self _ _)
    exact ih _ (write_inv v hB hs h1) (fun q hq => hlen q (List.mem_cons_of_mem _ hq))

theorem write_all_value {bword : Nat} (hB : bword ≤ 2 ^ 63) (ps : List (Nat × Nat)) :
    ∀ s : obstream, s.inv bword → (∀ p ∈ ps, p.2 ≤ bword) →
      (s.write_all bword ps).value bword = s.value bword + 2 ^ s.bits bword * packed ps := by
  induction ps with
  | nil => intro s _ _; simp [obstream.write_all, packed]
  | cons p ps ih =>
    intro s hs hlen
    obtain ⟨v, len⟩ := p
    have h1 : len ≤ bword := hlen (v, len) (List.mem_cons_self _ _)
    show ((s.write bword v len).write_all bword ps).value bword = _
    rw [ih _ (write_inv v hB hs h1) (fun q hq => hlen q (List.mem_cons_of_mem _ hq)),
      write_value v hB hs h1, write_bits v hB hs h1]
    simp only [packed, Nat.pow_add]
    ring

theorem write_all_bits {bword : Nat} (hB : bword ≤ 2 ^ 63) (ps : List (Nat × Nat)) :
    ∀ s : obstream, s.inv bword → (∀ p ∈ ps, p.2 ≤ bword) →
      (s.write_all bword ps).bits bword = s.bits bword + (ps.map Prod.snd).sum := by
  induction ps with
  | nil => intro s _ _; simp [obstream.write_all]
  | cons p ps ih =>
    intro s hs hlen
    obtain ⟨v, len⟩ := p
    have h1 : len ≤ bword := hlen (v, len) (List.mem_cons_self _ _)
    show ((s.write bword v len).write_all bword ps).bits bword = _
    rw [ih _ (write_inv v hB hs h1) (fun q hq => hlen q (List.mem_cons_of_mem _ hq)),
      write_bits v hB hs h1]
    simp only [List.map_cons, List.sum_cons]
    omega

theorem align_inv {bword : Nat} {s : obstream} (hs : s.inv bword) : s.align.inv bword := by
  obtain ⟨hoff, hbuf, hos⟩ := hs
  unfold obstream.align
  split
  · refine ⟨by simp only; omega, by simp, ?_⟩
    intro w hw
    simp only [List.mem_append, List.mem_singleton] at hw
    rcases hw with hw | hw
    · exact hos w hw
    · rw [hw]
      exact lt_trans hbuf (Nat.pow_lt_pow_right (by decide) hoff)
  · exact ⟨hoff, hbuf, hos⟩

theorem align_os_value {bword : Nat} {s : obstream} (hs : s.inv bword) :
    word_value bword s.align.os = s.value bword := by
  obtain ⟨_, hbuf, _⟩ := hs
  unfold obstream.align
  split
  · simp only [word_value_append, obstream.value]
  · rename_i h
    have h0 : s.boff = 0 := by omega
    have hb : s.buffer = 0 := by rw [h0] at hbuf; omega
    simp [obstream.value, hb]

theorem align_os_bits {bword : Nat} {s : obstream} (hs : s.inv bword) :
    s.bits bword ≤ bword * s.align.os.length := by
  obtain ⟨hoff, _, _⟩ := hs
  unfold obstream.align
  split
  · simp only [obstream.bits, List.length_append, List.length_singleton, Nat.mul_add, Nat.mul_one]
    omega
  · simp only [obstream.bits]
    omega

theorem packed_eq_sum (ps : List (Nat × Nat)) :
    packed ps = ∑ i ∈ Finset.range ps.length,
      (ps.getD i (0, 0)).1 % 2 ^ (ps.getD i (0, 0)).2 * 2 ^ ((ps.take i).map Prod.snd).sum := by
  induction ps with
  | nil => simp [packed]
  | cons p ps ih =>
    obtain ⟨v, len⟩ := p
    rw [List.length_cons, Finset.sum_range_succ', packed, ih, Finset.mul_sum]
    simp only [List.getD_cons_succ, List.take_succ_cons, List.map_cons, List.sum_cons,
      List.getD_cons_zero, List.take_zero, List.map_nil, List.sum_nil, Nat.pow_zero, Nat.mul_one,
      Nat.pow_add]
    rw [Nat.add_comm]
    congr 1
    apply Finset.sum_congr rfl
    intro i _
    ring

/-! ## One call of `read` -/

theorem read_refill {bword : Nat} (x : Nat) (rest : List Nat) {bleft buffer len : Nat}
    (hB : bword ≤ 2 ^ 63) (hx : x < 2 ^ bword) (hbuf : buffer < 2 ^ bleft)
    (hlt : bleft < len) (hlen : len ≤ bword) :
    ibstream.read bword
        { is := { words := x :: rest, fail := false }, bleft := bleft, buffer := buffer } len =
      ({ is := { words := rest, fail := false }, bleft := bword - (len - bleft),
         buffer := x / 2 ^ (len - bleft) },
        (buffer + 2 ^ bleft * x) % 2 ^ len) := by
  have h1 : size_t_sub len bleft = len - bleft := size_t_sub_eq (le_of_lt hlt) (by omega)
  have h2 : size_t_sub bword (len - bleft) = bword - (len - bleft) :=
    size_t_sub_eq (by omega) (by omega)
  have hdvd : 2 ^ len ∣ 2 ^ bword := Nat.pow_dvd_pow 2 hlen
  unfold ibstream.read istream.read
  simp only [if_pos hlt, h1, h2, lor_shiftLeft _ hbuf, and_bitmask _ hlen, rshift_eq _ hx,
    Nat.mod_mod_of_dvd _ hdvd, Bool.false_eq_true, if_false]

theorem read_buffered {bword : Nat} (r : ibstream) {len : Nat} (hB : bword ≤ 2 ^ 63)
    (hoff : r.bleft < bword) (hbuf : r.buffer < 2 ^ r.bleft) (hle : len ≤ r.bleft) :
    r.read bword len =
      ({ is := r.is, bleft := r.bleft - len, buffer := r.buffer / 2 ^ len },
        r.buffer % 2 ^ len) := by
  have h1 : size_t_sub r.bleft len = r.bleft - len := size_t_sub_eq hle (by omega)
  have hb : r.buffer < 2 ^ bword :=
    lt_trans hbuf (Nat.pow_lt_pow_right (by decide) hoff)
  unfold ibstream.read
  simp only [if_neg (not_lt.mpr hle), h1, and_bitmask _ (show len ≤ bword by omega),
    rshift_eq _ hb]

theorem read_step {bword : Nat} (r : ibstream) {len : Nat} (hB : bword ≤ 2 ^ 63)
    (hr : r.inv bword) (hlen : len ≤ bword) (hav : len ≤ r.avail bword) :
    (r.read bword len).2 = r.pending bword % 2 ^ len ∧
      (r.read bword len).1.inv bword ∧
      (r.read bword len).1.pending bword = r.pending bword / 2 ^ len ∧
      (r.read bword len).1.avail bword + len = r.avail bword := by
  obtain ⟨⟨words, fail⟩, bleft, buffer⟩ := r
  obtain ⟨hoff, hbuf, hfail, hws⟩ := hr
  simp only at hoff hbuf hfail hws
  subst hfail
  by_cases hlt : bleft < len
  · cases words with
    | nil => simp [ibstream.avail] at hav; omega
    | cons x rest =>
      have hx : x < 2 ^ bword := hws x (List.mem_cons_self _ _)
      rw [read_refill x rest hB hx hbuf hlt hlen]
      have hsplit : 2 ^ bword = 2 ^ (len - bleft) * 2 ^ (bword - (len - bleft)) := by
        rw [← Nat.pow_add]; congr 1; omega
      refine ⟨?_, ⟨by simp only; omega, ?_, rfl, ?_⟩, ?_, ?_⟩
      · simp only [ibstream.pending, word_value]
        have e : buffer + 2 ^ bleft * (x + 2 ^ bword * word_value bword rest) =
            (buffer + 2 ^ bleft * x) +
              2 ^ len * (2 ^ (bleft + bword - len) * word_value bword rest) := by
          have : 2 ^ bleft * 2 ^ bword = 2 ^ len * 2 ^ (bleft + bword - len) := by
            rw [← Nat.pow_add, ← Nat.pow_add]; congr 1; omega
          rw [Nat.mul_add, ← Nat.mul_assoc, this]
          ring
        rw [e, Nat.add_mul_mod_self_left]
      · simp only
        rw [Nat.div_lt_iff_lt_mul (Nat.two_pow_pos _), Nat.mul_comm, ← hsplit]
        exact hx
      · intro w hw
        exact hws w (List.mem_cons_of_mem _ hw)
      · simp only [ibstream.pending, word_value]
        rw [add_shift_div _ hbuf (le_of_lt hlt), hsplit, Nat.mul_assoc,
          Nat.add_mul_div_left _ _ (Nat.two_pow_pos _)]
      · simp only [ibstream.avail, List.length_cons, Nat.mul_succ]
        omega
  · have hle : len ≤ bleft := not_lt.mp hlt
    rw [read_buffered _ hB hoff hbuf hle]
    have hsplit : 2 ^ bleft = 2 ^ len * 2 ^ (bleft - len) := by
      rw [← Nat.pow_add]; congr 1; omega
    refine ⟨?_, ⟨by simp only; omega, ?_, rfl, hws⟩, ?_, ?_⟩
    · simp only [ibstream.pending]
      rw [hsplit, Nat.mul_assoc, Nat.add_mul_mod_self_left]
    · simp only
      rw [Nat.div_lt_iff_lt_mul (Nat.two_pow_pos _), Nat.mul_comm, ← hsplit]
      exact hbuf
    · simp only [ibstream.pending]
      rw [hsplit, Nat.mul_assoc, Nat.add_mul_div_left _ _ (Nat.two_pow_pos _)]
    · simp only [ibstream.avail]
      omega

/-! ## Sequences of `read` -/

theorem ibstream_mk0_inv {bword : Nat} (hB0 : 0 < bword) {ws : List Nat}
    (hws : ∀ w ∈ ws, w < 2 ^ bword) : (ibstream.mk0 ws).inv bword :=
  ⟨hB0, by simp [ibstream.mk0], rfl, hws⟩

theorem ibstream_mk0_pending (bword : Nat) (ws : List Nat) :
    (ibstream.mk0 ws).pending bword = word_value bword ws := by
  simp [ibstream.pending, ibstream.mk0]

theorem ibstream_mk0_avail (bword : Nat) (ws : List Nat) :
    (ibstream.mk0 ws).avail bword = bword * ws.length := by
  simp [ibstream.avail, ibstream.mk0]

theorem read_all_cons (bword : Nat) (r : ibstream) (len : Nat) (ls : List Nat) :
    r.read_all bword (len :: ls) =
      (((r.read bword len).1.read_all bword ls).1,
        (r.read bword len).2 :: ((r.read bword len).1.read_all bword ls).2) := rfl

theorem read_all_fields {bword : Nat} (hB : bword ≤ 2 ^ 63) (lens : List Nat) :
    ∀ r : ibstream, r.inv bword → (∀ l ∈ lens, l ≤ bword) → lens.sum ≤ r.avail bword →
      (r.read_all bword lens).2 = fields (r.pending bword) lens ∧
      (r.read_all bword lens).1.inv bword ∧
      (r.read_all bword lens).1.avail bword + lens.sum = r.avail bword := by
  induction lens with
  | nil => intro r hr _ _; exact ⟨rfl, hr, rfl⟩
  | cons len ls ih =>
    intro r hr hlens hsum
    have hlen : len ≤ bword := hlens len (List.mem_cons_self _ _)
    rw [List.sum_cons] at hsum
    obtain ⟨h1, h2, h3, h4⟩ := read_step r hB hr hlen (by omega)
    obtain ⟨i1, i2, i3⟩ := ih (r.read bword len).1 h2
      (fun l hl => hlens l (List.mem_cons_of_mem _ hl)) (by omega)
    rw [read_all_cons]
    refine ⟨?_, i2, ?_⟩
    · simp only [fields, h1, i1, h3]
    · simp only [List.sum_cons]
      omega

theorem fields_length (lens : List Nat) : ∀ n : Nat, (fields n lens).length = lens.length := by
  induction lens with
  | nil => intro n; rfl
  | cons len ls ih => intro n; simp [fields, ih]

theorem fields_getD (lens : List Nat) :
    ∀ (n i : Nat), i < lens.length →
      (fields n lens).getD i 0 = n / 2 ^ (lens.take i).sum % 2 ^ lens.getD i 0 := by
  induction lens with
  | nil => intro n i hi; simp at hi
  | cons len ls ih =>
    intro n i hi
    cases i with
    | zero => simp [fields]
    | succ j =>
      have hj : j < ls.length := by simpa using hi
      simp only [fields, List.getD_cons_succ, List.take_succ_cons, List.sum_cons, ih _ j hj,
        Nat.pow_add, Nat.div_div_eq_div_mul]

theorem fields_packed (ps : List (Nat × Nat)) :
    fields (packed ps) (ps.map Prod.snd) = ps.map (fun p => p.1 % 2 ^ p.2) := by
  induction ps with
  | nil => rfl
  | cons p ps ih =>
    obtain ⟨v, len⟩ := p
    have hv : v % 2 ^ len < 2 ^ len := Nat.mod_lt _ (Nat.two_pow_pos len)
    simp only [List.map_cons, fields, packed, Nat.add_mul_mod_self_left, Nat.mod_mod,
      Nat.add_mul_div_left _ _ (Nat.two_pow_pos len), Nat.div_eq_of_lt hv, Nat.zero_add, ih]

/-! ## The claims -/

/-- C1, round trip: for every word width and every sequence of pairs
`(v_i, len_i)` with `len_i <= B`, writing the pairs in order on a fresh writer,
calling `close()`, and reading the same lengths in order on a fresh reader over
the emitted words returns `v_i & bitmask(len_i)` for every `i`; the source's
failure flag is still clear afterwards, so the reader never asked it for a word
beyond those the writer emitted. -/
theorem round_trip (bword : Nat) (ps : List (Nat × Nat)) (hB0 : 0 < bword)
    (hB : bword ≤ 2 ^ 63) (hlen : ∀ p ∈ ps, p.2 ≤ bword) :
    ((ibstream.mk0 ((obstream.mk0.write_all bword ps).close).os).read_all bword
        (ps.map Prod.snd)).2 = ps.map (fun p => p.1 &&& bitmask bword p.2) ∧
    ((ibstream.mk0 ((obstream.mk0.write_all bword ps).close).os).read_all bword
        (ps.map Prod.snd)).1.stream.fail = false := by
  have hw := write_all_inv hB ps _ (mk0_inv hB0) hlen
  have hval := write_all_value hB ps _ (mk0_inv hB0) hlen
  have hbits := write_all_bits hB ps _ (mk0_inv hB0) hlen
  have hos := align_os_value hw
  have hk := align_os_bits hw
  have hwords := (align_inv hw).2.2
  have hlens : ∀ l ∈ ps.map Prod.snd, l ≤ bword := by
    intro l hl
    obtain ⟨p, hp, rfl⟩ := List.mem_map.mp hl
    exact hlen p hp
  have hsum : (ps.map Prod.snd).sum ≤
      (ibstream.mk0 (obstream.mk0.write_all bword ps).align.os).avail bword := by
    rw [ibstream_mk0_avail]
    have : obstream.mk0.bits bword = 0 := by simp [obstream.bits, obstream.mk0]
    omega
  obtain ⟨r1, r2, _⟩ := read_all_fields hB (ps.map Prod.snd) _
    (ibstream_mk0_inv hB0 hwords) hlens hsum
  have h0 : obstream.mk0.value bword = 0 := by simp [obstream.value, obstream.mk0, word_value]
  have hb0 : obstream.mk0.bits bword = 0 := by simp [obstream.bits, obstream.mk0]
  refine ⟨?_, r2.2.2.1⟩
  show ((ibstream.mk0 (obstream.mk0.write_all bword ps).align.os).read_all bword
    (ps.map Prod.snd)).2 = _
  rw [r1, ibstream_mk0_pending, hos, hval, h0, hb0, Nat.pow_zero, Nat.one_mul, Nat.zero_add,
    fields_packed]
  apply List.map_congr_left
  intro p hp
  exact (and_bitmask p.1 (hlen p hp)).symm

/-- Witness for C1 with 8 bit words: three fields, the second one crossing a
word boundary and the first one wider than its length. -/
theorem round_trip_witness :
    ((ibstream.mk0 ((obstream.mk0.write_all 8 [(0xFD, 3), (0xAB, 8), (1, 0)]).close).os).read_all 8
        ([(0xFD, 3), (0xAB, 8), (1, 0)].map Prod.snd)).2 =
      [(0xFD, 3), (0xAB, 8), (1, 0)].map (fun p => p.1 &&& bitmask 8 p.2) ∧
    ((ibstream.mk0 ((obstream.mk0.write_all 8 [(0xFD, 3), (0xAB, 8), (1, 0)]).close).os).read_all 8
        ([(0xFD, 3), (0xAB, 8), (1, 0)].map Prod.snd)).1.stream.fail = false :=
  round_trip 8 [(0xFD, 3), (0xAB, 8), (1, 0)] (by decide) (by decide) (by decide)

/-- C2, wire format of the writer: for every sequence of pairs `(v_i, len_i)`
with `len_i <= B` written to a fresh writer and followed by `close()`, the
emitted words are below `2^B` and, read as the number `sum_j w_j * 2^(B*j)`,
equal `sum_i (v_i mod 2^len_i) * 2^(len_0 + ... + len_(i-1))`: every value is
cut to its low `len_i` bits, fields are laid out low-to-high in write order
and all padding bits are zero. -/
theorem wire_format (bword : Nat) (ps : List (Nat × Nat)) (hB0 : 0 < bword)
    (hB : bword ≤ 2 ^ 63) (hlen : ∀ p ∈ ps, p.2 ≤ bword) :
    word_value bword ((obstream.mk0.write_all bword ps).close).os =
      ∑ i ∈ Finset.range ps.length,
        (ps.getD i (0, 0)).1 % 2 ^ (ps.getD i (0, 0)).2 *
          2 ^ ((ps.take i).map Prod.snd).sum ∧
    ∀ w ∈ ((obstream.mk0.write_all bword ps).close).os, w < 2 ^ bword := by
  have hw := write_all_inv hB ps _ (mk0_inv hB0) hlen
  have hval := write_all_value hB ps _ (mk0_inv hB0) hlen
  have h0 : obstream.mk0.value bword = 0 := by simp [obstream.value, obstream.mk0, word_value]
  have hb0 : obstream.mk0.bits bword = 0 := by simp [obstream.bits, obstream.mk0]
  refine ⟨?_, (align_inv hw).2.2⟩
  show word_value bword (obstream.mk0.write_all bword ps).align.os = _
  rw [align_os_value hw, hval, h0, hb0, Nat.pow_zero, Nat.one_mul, Nat.zero_add, packed_eq_sum]

/-- Witness for C2 with `B = 8`: `write(0b101, 3)`, `write(0b11, 2)`, `close()`
emits the single byte `0b00011101`, whose value is the sum of the two fields. -/
theorem wire_format_witness :
    ((obstream.mk0.write_all 8 [(0b101, 3), (0b11, 2)]).close).os = [0b00011101] ∧
    (word_value 8 ((obstream.mk0.write_all 8 [(0b101, 3), (0b11, 2)]).close).os =
      ∑ i ∈ Finset.range [(0b101, 3), (0b11, 2)].length,
        ([(0b101, 3), (0b11, 2)].getD i (0, 0)).1 % 2 ^ ([(0b101, 3), (0b11, 2)].getD i (0, 0)).2 *
          2 ^ (([(0b101, 3), (0b11, 2)].take i).map Prod.snd).sum ∧
    ∀ w ∈ ((obstream.mk0.write_all 8 [(0b101, 3), (0b11, 2)]).close).os, w < 2 ^ 8) :=
  ⟨by decide, wire_format 8 [(0b101, 3), (0b11, 2)] (by decide) (by decide) (by decide)⟩

/-- C3, reference semantics of the reader: for a fresh reader over a source
holding the words `w_0 .. w_(k-1)`, with `N = sum_j w_j * 2^(B*j)`, every
sequence `read(len_1), ..., read(len_m)` with `len_i <= B` and
`len_1 + ... + len_m <= k*B` returns one word per call, the `i`-th being
`floor(N / 2^(len_1 + ... + len_(i-1))) mod 2^len_i`, which is below
`2^len_i`. -/
theorem reader_reference (bword : Nat) (ws lens : List Nat) (hB0 : 0 < bword)
    (hB : bword ≤ 2 ^ 63) (hws : ∀ w ∈ ws, w < 2 ^ bword) (hlens : ∀ l ∈ lens, l ≤ bword)
    (hsum : lens.sum ≤ ws.length * bword) :
    ((ibstream.mk0 ws).read_all bword lens).2.length = lens.length ∧
    ∀ i, i < lens.length →
      ((ibstream.mk0 ws).read_all bword lens).2.getD i 0 =
        word_value bword ws / 2 ^ (lens.take i).sum % 2 ^ lens.getD i 0 ∧
      ((ibstream.mk0 ws).read_all bword lens).2.getD i 0 < 2 ^ lens.getD i 0 := by
  have hav : lens.sum ≤ (ibstream.mk0 ws).avail bword := by
    rw [ibstream_mk0_avail, Nat.mul_comm]; exact hsum
  obtain ⟨r1, _, _⟩ := read_all_fields hB lens _ (ibstream_mk0_inv hB0 hws) hlens hav
  rw [r1, ibstream_mk0_pending]
  refine ⟨fields_length lens _, ?_⟩
  intro i hi
  rw [fields_getD lens _ i hi]
  exact ⟨rfl, Nat.mod_lt _ (Nat.two_pow_pos _)⟩

/-- Witness for C3 with `B = 8`: two source bytes read as fields of 3, 8 and 5
bits. -/
theorem reader_reference_witness :
    ((ibstream.mk0 [0xA5, 0x3C]).read_all 8 [3, 8, 5]).2.length = [3, 8, 5].length ∧
    ∀ i, i < [3, 8, 5].length →
      ((ibstream.mk0 [0xA5, 0x3C]).read_all 8 [3, 8, 5]).2.getD i 0 =
        word_value 8 [0xA5, 0x3C] / 2 ^ ([3, 8, 5].take i).sum % 2 ^ [3, 8, 5].getD i 0 ∧
      ((ibstream.mk0 [0xA5, 0x3C]).read_all 8 [3, 8, 5]).2.getD i 0 < 2 ^ [3, 8, 5].getD i 0 :=
  reader_reference 8 [0xA5, 0x3C] [3, 8, 5] (by decide) (by decide) (by decide) (by decide)
    (by decide)

/-- C4 at its test input, `B = 8`, source bytes `[0xFF, 0x00]`: after
`read(1)` and `align()`, the call `read(8)` fetches the second byte `0x00` but
returns `0x7F`, the seven bits that were buffered before `align()`;
`align()` itself leaves the source untouched. -/
theorem reader_align_stale_bits :
    (((ibstream.mk0 [0xFF, 0x00]).read 8 1).1.align.read 8 8).2 = 0x7F ∧
    (((ibstream.mk0 [0xFF, 0x00]).read 8 1).1.align.read 8 8).2 ≠ 0x00 &&& bitmask 8 8 ∧
    ((ibstream.mk0 [0xFF, 0x00]).read 8 1).1.is.words = [0x00] ∧
    ((ibstream.mk0 [0xFF, 0x00]).read 8 1).1.align.is.words = [0x00] ∧
    ((ibstream.mk0 [0xFF, 0x00]).read 8 1).1.align.buffer = 0x7F ∧
    (((ibstream.mk0 [0xFF, 0x00]).read 8 1).1.align.read 8 8).1.is.words = [] := by
  decide

/-! ## `byte_align`, `one_pad` and reachable writer states -/

theorem byte_align_eq {bword : Nat} (s : obstream) (hB : bword ≤ 2 ^ 63)
    (hoff : s.boff < bword) (hr : s.boff % 8 ≠ 0) :
    s.byte_align bword =
      if s.boff + (8 - s.boff % 8) = bword then
        { os := s.os ++ [s.buffer], boff := 0, buffer := 0 }
      else { os := s.os, boff := s.boff + (8 - s.boff % 8), buffer := s.buffer } := by
  have h1 : size_t_sub 8 (s.boff % 8) = 8 - s.boff % 8 :=
    size_t_sub_eq (by omega) (by decide)
  have h2 : size_t_add s.boff (8 - s.boff % 8) = s.boff + (8 - s.boff % 8) :=
    size_t_add_eq (by omega)
  unfold obstream.byte_align
  simp only [if_pos hr, h1, h2]

theorem byte_align_inv {bword : Nat} {s : obstream} (hB : bword ≤ 2 ^ 63) (h8 : 8 ∣ bword)
    (hs : s.inv bword) : (s.byte_align bword).inv bword := by
  obtain ⟨hoff, hbuf, hos⟩ := hs
  by_cases hr : s.boff % 8 = 0
  · have : s.byte_align bword = s := by
      unfold obstream.byte_align
      simp only [hr, ne_eq, not_true_eq_false, if_false]
    rw [this]
    exact ⟨hoff, hbuf, hos⟩
  · rw [byte_align_eq s hB hoff hr]
    split
    · refine ⟨by simp only; omega, by simp, ?_⟩
      intro w hw
      simp only [List.mem_append, List.mem_singleton] at hw
      rcases hw with hw | hw
      · exact hos w hw
      · rw [hw]
        exact lt_trans hbuf (Nat.pow_lt_pow_right (by decide) hoff)
    · refine ⟨by simp only; omega, ?_, hos⟩
      exact lt_of_lt_of_le hbuf (Nat.pow_le_pow_right (by decide) (Nat.le_add_right _ _))

theorem one_pad_inv {bword : Nat} {s : obstream} (hs : s.inv bword) :
    (s.one_pad bword).inv bword := by
  obtain ⟨hoff, hbuf, hos⟩ := hs
  unfold obstream.one_pad
  split
  · refine ⟨by simp only; omega, by simp, ?_⟩
    intro w hw
    simp only [List.mem_append, List.mem_singleton] at hw
    rcases hw with hw | hw
    · exact hos w hw
    · rw [hw]
      exact Nat.mod_lt _ (Nat.two_pow_pos bword)
  · exact ⟨hoff, hbuf, hos⟩

theorem reachable_inv {bword : Nat} (hB0 : 0 < bword) (hB : bword ≤ 2 ^ 63) (h8 : 8 ∣ bword)
    {s : obstream} (hs : obstream.Reachable bword s) : s.inv bword := by
  induction hs with
  | fresh => exact mk0_inv hB0
  | write s w len _ hlen ih => exact write_inv w hB ih hlen
  | align s _ ih => exact align_inv ih
  | close s _ ih => exact align_inv ih
  | byte_align s _ ih => exact byte_align_inv hB h8 ih
  | one_pad s _ ih => exact one_pad_inv ih

theorem one_pad_word_bits {bword : Nat} (buffer boff : Nat) (hoff : boff < bword) :
    (∀ i, boff ≤ i → i < bword →
        ((buffer ||| (bitmask bword bword <<< boff)) % 2 ^ bword).testBit i = true) ∧
      ∀ i, i < boff →
        ((buffer ||| (bitmask bword bword <<< boff)) % 2 ^ bword).testBit i =
          buffer.testBit i := by
  have hm : bitmask bword bword = 2 ^ bword - 1 := by simp [bitmask]
  rw [hm]
  constructor
  · intro i h1 h2
    have h3 : i - boff < bword := by omega
    simp [Nat.testBit_mod_two_pow, Nat.testBit_or, Nat.testBit_shiftLeft,
      Nat.testBit_two_pow_sub_one, h1, h2, h3]
  · intro i h1
    have h2 : i < bword := by omega
    have h3 : ¬ boff ≤ i := by omega
    simp [Nat.testBit_mod_two_pow, Nat.testBit_or, Nat.testBit_shiftLeft, h2, h3]

/-- C5, one-pad terminator: for every writer state `s` reached from a fresh
writer by writes with `len <= B` that has `boff > 0`, `one_pad()` emits exactly
one word; its bits at positions `[boff, B)` are all 1, its bits at positions
`[0, boff)` are those of the pending `buffer`, and the writer is left with
`boff == 0` and `buffer == 0`. -/
theorem one_pad_terminator (bword : Nat) (ps : List (Nat × Nat)) (s : obstream)
    (hB0 : 0 < bword) (hB : bword ≤ 2 ^ 63) (hlen : ∀ p ∈ ps, p.2 ≤ bword)
    (hs : s = obstream.mk0.write_all bword ps) (hpos : 0 < s.boff) :
    ∃ w, (s.one_pad bword).os = s.os ++ [w] ∧ w < 2 ^ bword ∧
      (∀ i, s.boff ≤ i → i < bword → w.testBit i = true) ∧
      (∀ i, i < s.boff → w.testBit i = s.buffer.testBit i) ∧
      (s.one_pad bword).boff = 0 ∧ (s.one_pad bword).buffer = 0 := by
  have hinv : s.inv bword := by
    rw [hs]; exact write_all_inv hB ps _ (mk0_inv hB0) hlen
  obtain ⟨h1, h2⟩ := one_pad_word_bits s.buffer s.boff hinv.1
  refine ⟨(s.buffer ||| (bitmask bword bword <<< s.boff)) % 2 ^ bword, ?_,
    Nat.mod_lt _ (Nat.two_pow_pos bword), h1, h2, ?_, ?_⟩ <;>
  simp only [obstream.one_pad, if_pos hpos]

/-- Witness for C5 with `B = 8`: after `write(0b101, 3)`, `one_pad()` emits
`0b11111101`. -/
theorem one_pad_terminator_witness :
    (obstream.one_pad 8 (obstream.mk0.write_all 8 [(0b101, 3)])).os = [0b11111101] ∧
    ∃ w, ((obstream.mk0.write_all 8 [(0b101, 3)]).one_pad 8).os =
        (obstream.mk0.write_all 8 [(0b101, 3)]).os ++ [w] ∧ w < 2 ^ 8 ∧
      (∀ i, (obstream.mk0.write_all 8 [(0b101, 3)]).boff ≤ i → i < 8 → w.testBit i = true) ∧
      (∀ i, i < (obstream.mk0.write_all 8 [(0b101, 3)]).boff →
        w.testBit i = (obstream.mk0.write_all 8 [(0b101, 3)]).buffer.testBit i) ∧
      ((obstream.mk0.write_all 8 [(0b101, 3)]).one_pad 8).boff = 0 ∧
      ((obstream.mk0.write_all 8 [(0b101, 3)]).one_pad 8).buffer = 0 :=
  ⟨by decide, one_pad_terminator 8 [(0b101, 3)] _ (by decide) (by decide) (by decide) rfl
    (by decide)⟩

/-- C6, byte-align invariant: for every writer state with `boff < B`, `B` a
multiple of 8, after `byte_align()` the offset is a multiple of 8 and still
below `B`; when the offset was already a multiple of 8, `byte_align()` leaves
the whole state, sink included, unchanged. -/
theorem byte_align_invariant (bword : Nat) (s : obstream) (hB : bword ≤ 2 ^ 63)
    (h8 : 8 ∣ bword) (hoff : s.boff < bword) :
    8 ∣ (s.byte_align bword).boff ∧ (s.byte_align bword).boff < bword ∧
      (8 ∣ s.boff → s.byte_align bword = s) := by
  by_cases hr : s.boff % 8 = 0
  · have : s.byte_align bword = s := by
      unfold obstream.byte_align
      simp only [hr, ne_eq, not_true_eq_false, if_false]
    rw [this]
    exact ⟨by omega, hoff, fun _ => rfl⟩
  · rw [byte_align_eq s hB hoff hr]
    refine ⟨?_, ?_, fun h => absurd (by omega) hr⟩
    · split
      · simp
      · simp only; omega
    · split
      · simp only; omega
      · simp only; omega

/-- Witness for C6 with 16 bit words: offset 11 is padded to 16, which flushes
the word. -/
theorem byte_align_invariant_witness :
    obstream.byte_align 16 (obstream.mk [] 11 0x5A5) = obstream.mk [0x5A5] 0 0 ∧
    (8 ∣ (obstream.byte_align 16 (obstream.mk [] 11 0x5A5)).boff ∧
      (obstream.byte_align 16 (obstream.mk [] 11 0x5A5)).boff < 16 ∧
      (8 ∣ (obstream.mk [] 11 0x5A5).boff →
        obstream.byte_align 16 (obstream.mk [] 11 0x5A5) = obstream.mk [] 11 0x5A5)) :=
  ⟨by decide, byte_align_invariant 16 (obstream.mk [] 11 0x5A5) (by decide) (by decide)
    (by decide)⟩

/-- C7, idempotent align/close: on every reachable writer state, `align()`
leaves `boff == 0` and `buffer == 0`, emitting the one word `buffer` when
`boff > 0` and nothing when `boff == 0`; a second `align()` or `close()`
directly after the first changes neither the sink nor the state, and the same
holds after `close()`. -/
theorem align_idempotent (bword : Nat) (s : obstream) (hB0 : 0 < bword)
    (hB : bword ≤ 2 ^ 63) (h8 : 8 ∣ bword) (hs : obstream.Reachable bword s) :
    s.align.boff = 0 ∧ s.align.buffer = 0 ∧
      (0 < s.boff → s.align.os = s.os ++ [s.buffer]) ∧
      (s.boff = 0 → s.align.os = s.os) ∧
      s.align.align = s.align ∧ s.align.close = s.align ∧
      s.close.close = s.close ∧ s.close.align = s.close := by
  obtain ⟨_, hbuf, _⟩ := reachable_inv hB0 hB h8 hs
  have hidem : s.align.align = s.align := by
    by_cases h : 0 < s.boff
    · simp [obstream.align, h]
    · simp [obstream.align, h]
  refine ⟨?_, ?_, ?_, ?_, hidem, hidem, hidem, hidem⟩
  · by_cases h : 0 < s.boff
    · simp [obstream.align, h]
    · simp only [obstream.align, if_neg h]; omega
  · by_cases h : 0 < s.boff
    · simp [obstream.align, h]
    · simp only [obstream.align, if_neg h]
      have h0 : s.boff = 0 := by omega
      rw [h0] at hbuf
      omega
  · intro h
    simp [obstream.align, h]
  · intro h
    simp [obstream.align, h]

/-- Witness for C7 with `B = 8`: the state after `write(0b101, 3)`. -/
theorem align_idempotent_witness :
    (obstream.mk0.write 8 0b101 3).align = obstream.mk [0b101] 0 0 ∧
    ((obstream.mk0.write 8 0b101 3).align.boff = 0 ∧
      (obstream.mk0.write 8 0b101 3).align.buffer = 0 ∧
      (0 < (obstream.mk0.write 8 0b101 3).boff →
        (obstream.mk0.write 8 0b101 3).align.os =
          (obstream.mk0.write 8 0b101 3).os ++ [(obstream.mk0.write 8 0b101 3).buffer]) ∧
      ((obstream.mk0.write 8 0b101 3).boff = 0 →
        (obstream.mk0.write 8 0b101 3).align.os = (obstream.mk0.write 8 0b101 3).os) ∧
      (obstream.mk0.write 8 0b101 3).align.align = (obstream.mk0.write 8 0b101 3).align ∧
      (obstream.mk0.write 8 0b101 3).align.close = (obstream.mk0.write 8 0b101 3).align ∧
      (obstream.mk0.write 8 0b101 3).close.close = (obstream.mk0.write 8 0b101 3).close ∧
      (obstream.mk0.write 8 0b101 3).close.align = (obstream.mk0.write 8 0b101 3).close) :=
  ⟨by decide, align_idempotent 8 (obstream.mk0.write 8 0b101 3) (by decide) (by decide)
    (by decide) (obstream.Reachable.write _ _ _ obstream.Reachable.fresh (by decide))⟩

/-- C8, full-word edge case: for every word value `v`, `write(v, B)` on a
freshly constructed writer emits exactly the one word `v` and leaves
`boff == 0` and `buffer == 0`; the only native shift, `w << boff`, is by
`boff == 0`, the mask used is `bitmask(B)`, all ones, and the carry is
`rshift(v, B)`, which is 0. -/
theorem full_word_write (bword v : Nat) (hB0 : 0 < bword) (hB : bword ≤ 2 ^ 63)
    (hv : v < 2 ^ bword) :
    obstream.mk0.write bword v bword = { os := [v], boff := 0, buffer := 0 } ∧
      obstream.mk0.boff = 0 ∧
      bitmask bword bword = 2 ^ bword - 1 ∧ rshift bword v bword = 0 := by
  refine ⟨?_, rfl, by simp [bitmask], by simp [rshift]⟩
  have h := @write_emit bword obstream.mk0 v bword hB hB0
    (by simp [obstream.mk0]) (le_refl bword) (by simp [obstream.mk0])
  rw [h]
  simp [obstream.mk0, Nat.mod_eq_of_lt hv, Nat.div_eq_of_lt hv]

/-- Witness for C8 with 64 bit words and the all-ones word. -/
theorem full_word_write_witness :
    obstream.mk0.write 64 (2 ^ 64 - 1) 64 = { os := [2 ^ 64 - 1], boff := 0, buffer := 0 } ∧
      obstream.mk0.boff = 0 ∧
      bitmask 64 64 = 2 ^ 64 - 1 ∧ rshift 64 (2 ^ 64 - 1) 64 = 0 :=
  full_word_write 64 (2 ^ 64 - 1) (by decide) (by decide) (by decide)

/-- C9, exhaustion is detectable: for a fresh reader over a source holding `k`
words and any sequence of reads with `len <= B` that stays within the `k*B`
bits, the stream seen through `stream()` has not failed; the first further
`read(len)` that needs a bit beyond position `k*B` leaves that stream with its
failure flag raised. -/
theorem exhaustion_detectable (bword : Nat) (ws lens : List Nat) (len : Nat)
    (hB0 : 0 < bword) (hB : bword ≤ 2 ^ 63) (hws : ∀ w ∈ ws, w < 2 ^ bword)
    (hlens : ∀ l ∈ lens, l ≤ bword) (hlen : len ≤ bword)
    (hfit : lens.sum ≤ ws.length * bword) (hover : ws.length * bword < lens.sum + len) :
    ((ibstream.mk0 ws).read_all bword lens).1.stream.fail = false ∧
      ((((ibstream.mk0 ws).read_all bword lens).1.read bword len).1).stream.fail = true := by
  have hav : lens.sum ≤ (ibstream.mk0 ws).avail bword := by
    rw [ibstream_mk0_avail, Nat.mul_comm]; exact hfit
  obtain ⟨_, hinv, hleft⟩ := read_all_fields hB lens _ (ibstream_mk0_inv hB0 hws) hlens hav
  rw [ibstream_mk0_avail, Nat.mul_comm] at hleft
  generalize ((ibstream.mk0 ws).read_all bword lens).1 = r at hinv hleft
  obtain ⟨⟨words, fail⟩, bleft, buffer⟩ := r
  obtain ⟨_, _, hfail, _⟩ := hinv
  simp only at hfail
  subst hfail
  simp only [ibstream.avail] at hleft
  have hlt : bleft < len := by omega
  have hnil : words = [] := by
    cases words with
    | nil => rfl
    | cons x rest =>
      simp only [List.length_cons, Nat.mul_succ] at hleft
      omega
  subst hnil
  refine ⟨rfl, ?_⟩
  simp [ibstream.read, ibstream.stream, istream.read, hlt]

/-- Witness for C9 with `B = 8`: one source byte, `read(5)` fits and the
following `read(4)` runs off the end. -/
theorem exhaustion_detectable_witness :
    ((ibstream.mk0 [0xC3]).read_all 8 [5]).1.stream.fail = false ∧
      ((((ibstream.mk0 [0xC3]).read_all 8 [5]).1.read 8 4).1).stream.fail = true :=
  exhaustion_detectable 8 [0xC3] [5] 4 (by decide) (by decide) (by decide) (by decide)
    (by decide) (by decide) (by decide)

/-- C10 fails at `B = 8`, `len = 9`: `write(0, 9)` on a fresh writer is not
rejected, it emits a word and moves `boff` to 1; `read(9)` on a fresh reader
over `[0x00]` is not rejected either, it consumes the byte and leaves `bleft`
wrapped around to `2^64 - 1`. -/
theorem oversized_len_counterexample :
    obstream.mk0.write 8 0 9 = { os := [0], boff := 1, buffer := 0 } ∧
    (obstream.mk0.write 8 0 9).os ≠ obstream.mk0.os ∧
    (obstream.mk0.write 8 0 9).boff ≠ obstream.mk0.boff ∧
    (ibstream.mk0 [0x00]).read 8 9 =
      ({ is := { words := [], fail := false }, bleft := 2 ^ 64 - 1, buffer := 0 }, 0) ∧
    ((ibstream.mk0 [0x00]).read 8 9).1.is.words ≠ (ibstream.mk0 [0x00]).is.words ∧
    ((ibstream.mk0 [0x00]).read 8 9).1.bleft ≠ (ibstream.mk0 [0x00]).bleft := by
  decide

/-- C10 as amended: `len <= B` is an unchecked precondition. For every
`len > B`, `write(v, len)` on a fresh writer still emits one word and sets
`boff` to `len - B`, and `read(len)` on a fresh reader over a non-empty source
still consumes the first word. -/
theorem oversized_len_not_rejected (bword v len x : Nat) (ws : List Nat)
    (hlen : bword < len) (h64 : len < 2 ^ 64) :
    (obstream.mk0.write bword v len).os.length = 1 ∧
      (obstream.mk0.write bword v len).boff = len - bword ∧
      ((ibstream.mk0 (x :: ws)).read bword len).1.is.words = ws := by
  have h1 : size_t_add 0 len = len := by
    rw [size_t_add_eq (by omega)]; omega
  have h2 : size_t_sub len bword = len - bword := size_t_sub_eq (le_of_lt hlen) h64
  have h3 : 0 < len := by omega
  refine ⟨?_, ?_, ?_⟩
  · simp [obstream.write, obstream.mk0, h1, le_of_lt hlen]
  · simp [obstream.write, obstream.mk0, h1, le_of_lt hlen, h2]
  · simp [ibstream.read, ibstream.mk0, istream.read, h3]

/-- Witness for the amended C10 with `B = 8` and `len = 9`. -/
theorem oversized_len_not_rejected_witness :
    (obstream.mk0.write 8 0x1FF 9).os.length = 1 ∧
      (obstream.mk0.write 8 0x1FF 9).boff = 9 - 8 ∧
      ((ibstream.mk0 (0xFF :: [0x01])).read 8 9).1.is.words = [0x01] :=
  oversized_len_not_rejected 8 0x1FF 9 0xFF [0x01] (by decide) (by decide)

/-! ## Bookkeeping of one `write`, whatever the buffer holds -/

theorem write_os_boff {bword : Nat} (s : obstream) (v : Nat) {len : Nat} (hB : bword ≤ 2 ^ 63)
    (hoff : s.boff < bword) (hlen : len ≤ bword) :
    (bword ≤ s.boff + len →
        (s.write bword v len).os =
            s.os ++ [(s.buffer ||| ((v &&& bitmask bword len) <<< s.boff)) % 2 ^ bword] ∧
          (s.write bword v len).boff = s.boff + len - bword) ∧
      (s.boff + len < bword →
        (s.write bword v len).os = s.os ∧ (s.write bword v len).boff = s.boff + len) := by
  have h64 : s.boff + len < 2 ^ 64 := by omega
  constructor
  · intro h
    have h1 : size_t_sub (s.boff + len) bword = s.boff + len - bword := size_t_sub_eq h h64
    simp only [obstream.write, size_t_add_eq h64, if_pos h, h1, and_self]
  · intro h
    simp only [obstream.write, size_t_add_eq h64, if_neg (not_le.mpr h), and_self]

/-- C11, `one_pad()` on an aligned writer is a no-op: for every writer state
with `boff == 0`, `one_pad()` returns the state as it was, so no word is
emitted and `boff` and `buffer` are unchanged. -/
theorem one_pad_aligned_noop (bword : Nat) (s : obstream) (h : s.boff = 0) :
    s.one_pad bword = s ∧ (s.one_pad bword).os = s.os ∧
      (s.one_pad bword).boff = s.boff ∧ (s.one_pad bword).buffer = s.buffer := by
  have e : s.one_pad bword = s := by
    unfold obstream.one_pad
    rw [if_neg (by omega)]
  rw [e]
  exact ⟨rfl, rfl, rfl, rfl⟩

/-- Witness for C11 with `B = 8`: a writer that has emitted one byte and holds
nothing. -/
theorem one_pad_aligned_noop_witness :
    obstream.one_pad 8 (obstream.mk [0x1D] 0 0) = obstream.mk [0x1D] 0 0 ∧
      (obstream.one_pad 8 (obstream.mk [0x1D] 0 0)).os = (obstream.mk [0x1D] 0 0).os ∧
      (obstream.one_pad 8 (obstream.mk [0x1D] 0 0)).boff = (obstream.mk [0x1D] 0 0).boff ∧
      (obstream.one_pad 8 (obstream.mk [0x1D] 0 0)).buffer = (obstream.mk [0x1D] 0 0).buffer :=
  one_pad_aligned_noop 8 (obstream.mk [0x1D] 0 0) rfl

/-- C12, at most one word per write: for every writer state with `boff < B`
and every `len <= B`, `write(v, len)` appends exactly one word to the sink and
leaves `boff + len - B` when `boff + len >= B`, and otherwise leaves the sink
as it was and `boff + len`; in both cases the sink grows by at most one
word. -/
theorem write_at_most_one_word (bword : Nat) (s : obstream) (v len : Nat)
    (hB : bword ≤ 2 ^ 63) (hoff : s.boff < bword) (hlen : len ≤ bword) :
    (bword ≤ s.boff + len →
        (∃ w, (s.write bword v len).os = s.os ++ [w]) ∧
          (s.write bword v len).os.length = s.os.length + 1 ∧
          (s.write bword v len).boff = s.boff + len - bword) ∧
      (s.boff + len < bword →
        (s.write bword v len).os = s.os ∧ (s.write bword v len).boff = s.boff + len) ∧
      (s.write bword v len).os.length ≤ s.os.length + 1 := by
  obtain ⟨h1, h2⟩ := write_os_boff s v hB hoff hlen
  refine ⟨?_, h2, ?_⟩
  · intro h
    obtain ⟨e1, e2⟩ := h1 h
    exact ⟨⟨_, e1⟩, by rw [e1]; simp, e2⟩
  · by_cases h : bword ≤ s.boff + len
    · rw [(h1 h).1]; simp
    · rw [(h2 (not_le.mp h)).1]; omega

/-- Witness for C12 with `B = 8`: at offset 5, `write(0xFF, 6)` crosses the
word boundary, emits `0xFD` and leaves offset 3. -/
theorem write_at_most_one_word_witness :
    obstream.write 8 (obstream.mk [] 5 0x1D) 0xFF 6 = obstream.mk [0xFD] 3 0x7 ∧
    ((8 ≤ (obstream.mk [] 5 0x1D).boff + 6 →
        (∃ w, (obstream.write 8 (obstream.mk [] 5 0x1D) 0xFF 6).os =
          (obstream.mk [] 5 0x1D).os ++ [w]) ∧
          (obstream.write 8 (obstream.mk [] 5 0x1D) 0xFF 6).os.length =
            (obstream.mk [] 5 0x1D).os.length + 1 ∧
          (obstream.write 8 (obstream.mk [] 5 0x1D) 0xFF 6).boff =
            (obstream.mk [] 5 0x1D).boff + 6 - 8) ∧
      ((obstream.mk [] 5 0x1D).boff + 6 < 8 →
        (obstream.write 8 (obstream.mk [] 5 0x1D) 0xFF 6).os = (obstream.mk [] 5 0x1D).os ∧
          (obstream.write 8 (obstream.mk [] 5 0x1D) 0xFF 6).boff =
            (obstream.mk [] 5 0x1D).boff + 6) ∧
      (obstream.write 8 (obstream.mk [] 5 0x1D) 0xFF 6).os.length ≤
        (obstream.mk [] 5 0x1D).os.length + 1) :=
  ⟨by decide, write_at_most_one_word 8 (obstream.mk [] 5 0x1D) 0xFF 6 (by decide) (by decide)
    (by decide)⟩

/-- C13, writer offset invariant: `boff < B` holds for a fresh writer and, from
any state where it holds, still holds after `write(v, len)` with `len <= B`,
`align()`, `close()`, `byte_align()` and `one_pad()`. -/
theorem writer_offset_invariant (bword : Nat) (s : obstream) (v len : Nat) (hB0 : 0 < bword)
    (hB : bword ≤ 2 ^ 63) (h8 : 8 ∣ bword) (hoff : s.boff < bword) (hlen : len ≤ bword) :
    obstream.mk0.boff < bword ∧ (s.write bword v len).boff < bword ∧
      s.align.boff < bword ∧ s.close.boff < bword ∧
      (s.byte_align bword).boff < bword ∧ (s.one_pad bword).boff < bword := by
  have halign : s.align.boff < bword := by
    unfold obstream.align
    split
    · exact hB0
    · exact hoff
  refine ⟨hB0, ?_, halign, halign, ?_, ?_⟩
  · obtain ⟨h1, h2⟩ := write_os_boff s v hB hoff hlen
    by_cases h : bword ≤ s.boff + len
    · rw [(h1 h).2]; omega
    · rw [(h2 (not_le.mp h)).2]; omega
  · by_cases hr : s.boff % 8 = 0
    · have : s.byte_align bword = s := by
        unfold obstream.byte_align
        simp only [hr, ne_eq, not_true_eq_false, if_false]
      rw [this]; exact hoff
    · rw [byte_align_eq s hB hoff hr]
      split
      · exact hB0
      · simp only; omega
  · unfold obstream.one_pad
    split
    · exact hB0
    · exact hoff

/-- Witness for C13 with 16 bit words: the state at offset 11, and a write of
16 bits. -/
theorem writer_offset_invariant_witness :
    obstream.mk0.boff < 16 ∧ (obstream.write 16 (obstream.mk [] 11 0x5A5) 0xFFFF 16).boff < 16 ∧
      (obstream.mk [] 11 0x5A5).align.boff < 16 ∧ (obstream.mk [] 11 0x5A5).close.boff < 16 ∧
      (obstream.byte_align 16 (obstream.mk [] 11 0x5A5)).boff < 16 ∧
      (obstream.one_pad 16 (obstream.mk [] 11 0x5A5)).boff < 16 :=
  writer_offset_invariant 16 (obstream.mk [] 11 0x5A5) 0xFFFF 16 (by decide) (by decide)
    (by decide) (by decide) (by decide)

/-! ## Bookkeeping of one `read`, whatever the source holds -/

theorem read_bleft {bword : Nat} (r : ibstream) {len : Nat} (hB : bword ≤ 2 ^ 63)
    (hoff : r.bleft < bword) (hlen : len ≤ bword) :
    (r.read bword len).1.bleft =
      if r.bleft < len then bword - (len - r.bleft) else r.bleft - len := by
  by_cases hlt : r.bleft < len
  · have h1 : size_t_sub len r.bleft = len - r.bleft := size_t_sub_eq (le_of_lt hlt) (by omega)
    have h2 : size_t_sub bword (len - r.bleft) = bword - (len - r.bleft) :=
      size_t_sub_eq (by omega) (by omega)
    simp only [ibstream.read, if_pos hlt, h1, h2]
  · have h1 : size_t_sub r.bleft len = r.bleft - len :=
      size_t_sub_eq (not_lt.mp hlt) (by omega)
    simp only [ibstream.read, if_neg hlt, h1]

/-- C14, reader remaining invariant: `bleft < B` holds for a fresh reader and,
from any state where it holds, still holds after `read(len)` with `len <= B`,
whether or not the call refilled from the source and whatever the source
holds, and after `align()`. -/
theorem reader_remaining_invariant (bword : Nat) (ws : List Nat) (r : ibstream) (len : Nat)
    (hB0 : 0 < bword) (hB : bword ≤ 2 ^ 63) (hoff : r.bleft < bword) (hlen : len ≤ bword) :
    (ibstream.mk0 ws).bleft < bword ∧ (r.read bword len).1.bleft < bword ∧
      r.align.bleft < bword := by
  refine ⟨hB0, ?_, hB0⟩
  rw [read_bleft r hB hoff hlen]
  split <;> omega

/-- Witness for C14 with `B = 8`: a reader holding 3 bits that reads 8, which
refills. -/
theorem reader_remaining_invariant_witness :
    (ibstream.mk0 [0xA5]).bleft < 8 ∧
      (ibstream.read 8 (ibstream.mk (istream.mk [0xA5] false) 3 0x5) 8).1.bleft < 8 ∧
      (ibstream.mk (istream.mk [0xA5] false) 3 0x5).align.bleft < 8 :=
  reader_remaining_invariant 8 [0xA5] (ibstream.mk (istream.mk [0xA5] false) 3 0x5) 8
    (by decide) (by decide) (by decide) (by decide)

/-- C15, writer buffer invariant: `buffer < 2^boff` holds for a fresh writer
and, from any state with `boff < B` where it holds, still holds after
`write(v, len)` with `len <= B` for arbitrary `v`, `align()`, `close()`,
`byte_align()` and `one_pad()`; in such a state every bit of `buffer` at a
position `>= boff` is zero, so the bits `byte_align()` and `align()` pad with
are zero. -/
theorem writer_buffer_invariant (bword : Nat) (s : obstream) (v len : Nat)
    (hB : bword ≤ 2 ^ 63) (hoff : s.boff < bword) (hbuf : s.buffer < 2 ^ s.boff)
    (hlen : len ≤ bword) :
    obstream.mk0.buffer < 2 ^ obstream.mk0.boff ∧
      (s.write bword v len).buffer < 2 ^ (s.write bword v len).boff ∧
      s.align.buffer < 2 ^ s.align.boff ∧
      s.close.buffer < 2 ^ s.close.boff ∧
      (s.byte_align bword).buffer < 2 ^ (s.byte_align bword).boff ∧
      (s.one_pad bword).buffer < 2 ^ (s.one_pad bword).boff ∧
      ∀ i, s.boff ≤ i → s.buffer.testBit i = false := by
  have halign : s.align.buffer < 2 ^ s.align.boff := by
    unfold obstream.align
    split
    · simp
    · exact hbuf
  refine ⟨by simp [obstream.mk0], ?_, halign, halign, ?_, ?_, ?_⟩
  · by_cases h : bword ≤ s.boff + len
    · rw [write_emit v hB hoff hbuf hlen h]
      simp only
      have hv : v % 2 ^ len < 2 ^ len := Nat.mod_lt _ (Nat.two_pow_pos len)
      have hsplit : 2 ^ len = 2 ^ (s.boff + len - bword) * 2 ^ (bword - s.boff) := by
        rw [← Nat.pow_add]; congr 1; omega
      rw [Nat.div_lt_iff_lt_mul (Nat.two_pow_pos _), ← hsplit]
      exact hv
    · rw [write_keep v hB hbuf (not_le.mp h)]
      exact add_shift_lt hbuf (Nat.mod_lt _ (Nat.two_pow_pos len))
  · by_cases hr : s.boff % 8 = 0
    · have : s.byte_align bword = s := by
        unfold obstream.byte_align
        simp only [hr, ne_eq, not_true_eq_false, if_false]
      rw [this]; exact hbuf
    · rw [byte_align_eq s hB hoff hr]
      split
      · simp
      · exact lt_of_lt_of_le hbuf (Nat.pow_le_pow_right (by decide) (Nat.le_add_right _ _))
  · unfold obstream.one_pad
    split
    · simp
    · exact hbuf
  · intro i hi
    exact Nat.testBit_lt_two_pow (lt_of_lt_of_le hbuf (Nat.pow_le_pow_right (by decide) hi))

/-- Witness for C15 with `B = 8`: at offset 5, `write(0xFF, 6)` leaves the
carry `0b111` at offset 3. -/
theorem writer_buffer_invariant_witness :
    obstream.mk0.buffer < 2 ^ obstream.mk0.boff ∧
      (obstream.write 8 (obstream.mk [] 5 0x1D) 0xFF 6).buffer <
        2 ^ (obstream.write 8 (obstream.mk [] 5 0x1D) 0xFF 6).boff ∧
      (obstream.mk [] 5 0x1D).align.buffer < 2 ^ (obstream.mk [] 5 0x1D).align.boff ∧
      (obstream.mk [] 5 0x1D).close.buffer < 2 ^ (obstream.mk [] 5 0x1D).close.boff ∧
      (obstream.byte_align 8 (obstream.mk [] 5 0x1D)).buffer <
        2 ^ (obstream.byte_align 8 (obstream.mk [] 5 0x1D)).boff ∧
      (obstream.one_pad 8 (obstream.mk [] 5 0x1D)).buffer <
        2 ^ (obstream.one_pad 8 (obstream.mk [] 5 0x1D)).boff ∧
      ∀ i, (obstream.mk [] 5 0x1D).boff ≤ i → (obstream.mk [] 5 0x1D).buffer.testBit i = false :=
  writer_buffer_invariant 8 (obstream.mk [] 5 0x1D) 0xFF 6 (by decide) (by decide) (by decide)
    (by decide)

/-- C16, `byte_align()` is zero padding: for every writer state with
`boff < B` and `buffer < 2^boff`, `B` a multiple of 8, `byte_align()` ends in
the same sink, offset and buffer as `write(0, (8 - boff mod 8) mod 8)`,
the full-word flush when the padded offset reaches `B` included. -/
theorem byte_align_is_zero_padding (bword : Nat) (s : obstream) (hB : bword ≤ 2 ^ 63)
    (h8 : 8 ∣ bword) (hoff : s.boff < bword) (hbuf : s.buffer < 2 ^ s.boff) :
    s.byte_align bword = s.write bword 0 ((8 - s.boff % 8) % 8) := by
  have hb : s.buffer < 2 ^ bword := lt_trans hbuf (Nat.pow_lt_pow_right (by decide) hoff)
  by_cases hr : s.boff % 8 = 0
  · have e : s.byte_align bword = s := by
      unfold obstream.byte_align
      simp only [hr, ne_eq, not_true_eq_false, if_false]
    have hp : (8 - s.boff % 8) % 8 = 0 := by omega
    rw [e, hp, write_keep 0 hB hbuf (by omega)]
    simp
  · have hp : (8 - s.boff % 8) % 8 = 8 - s.boff % 8 := by omega
    rw [byte_align_eq s hB hoff hr, hp]
    by_cases h : s.boff + (8 - s.boff % 8) = bword
    · rw [if_pos h, write_emit 0 hB hoff hbuf (by omega) (by omega)]
      simp [h, Nat.mod_eq_of_lt hb]
    · rw [if_neg h, write_keep 0 hB hbuf (by omega)]
      simp

/-- Witness for C16 with 16 bit words: offset 11 is padded by 5 zero bits,
which completes and flushes the word. -/
theorem byte_align_is_zero_padding_witness :
    obstream.write 16 (obstream.mk [] 11 0x5A5) 0 ((8 - 11 % 8) % 8) = obstream.mk [0x5A5] 0 0 ∧
    obstream.byte_align 16 (obstream.mk [] 11 0x5A5) =
      obstream.write 16 (obstream.mk [] 11 0x5A5) 0
        ((8 - (obstream.mk [] 11 0x5A5).boff % 8) % 8) :=
  ⟨by decide, byte_align_is_zero_padding 16 (obstream.mk [] 11 0x5A5) (by decide) (by decide)
    (by decide) (by decide)⟩

/-- C17, reader refill step: for every reader state with `bleft < B` and
`buffer < 2^bleft` over a source whose next word is `x`, and every
`len <= B`: when `bleft < len` (also `len == B` with `bleft == 0`), `read(len)`
consumes exactly the word `x`, returns `(buffer + x * 2^bleft) mod 2^len` and
leaves `bleft' = B - (len - bleft)` and `buffer' = floor(x / 2^(len - bleft))`;
when `len <= bleft` it leaves the source as it was, returns `buffer mod 2^len`
and leaves `bleft - len` and `floor(buffer / 2^len)`. -/
theorem reader_refill_step (bword x : Nat) (rest : List Nat) (bleft buffer len : Nat)
    (hB : bword ≤ 2 ^ 63) (hx : x < 2 ^ bword) (hoff : bleft < bword)
    (hbuf : buffer < 2 ^ bleft) (hlen : len ≤ bword) :
    (bleft < len →
        ibstream.read bword
            { is := { words := x :: rest, fail := false }, bleft := bleft, buffer := buffer } len =
          ({ is := { words := rest, fail := false }, bleft := bword - (len - bleft),
             buffer := x / 2 ^ (len - bleft) },
            (buffer + x * 2 ^ bleft) % 2 ^ len)) ∧
      (len ≤ bleft →
        ibstream.read bword
            { is := { words := x :: rest, fail := false }, bleft := bleft, buffer := buffer } len =
          ({ is := { words := x :: rest, fail := false }, bleft := bleft - len,
             buffer := buffer / 2 ^ len },
            buffer % 2 ^ len)) := by
  constructor
  · intro hlt
    rw [read_refill x rest hB hx hbuf hlt hlen, Nat.mul_comm x]
  · intro hle
    exact read_buffered _ hB hoff hbuf hle

/-- Witness for C17 with `B = 8`: 3 buffered bits `0b101`, next source byte
`0xA5`, `read(8)` refills and returns `0x2D`. -/
theorem reader_refill_step_witness :
    ibstream.read 8 { is := { words := [0xA5, 0x3C], fail := false }, bleft := 3, buffer := 5 } 8 =
      ({ is := { words := [0x3C], fail := false }, bleft := 3, buffer := 0x5 }, 0x2D) ∧
    ((3 < 8 →
        ibstream.read 8
            { is := { words := 0xA5 :: [0x3C], fail := false }, bleft := 3, buffer := 5 } 8 =
          ({ is := { words := [0x3C], fail := false }, bleft := 8 - (8 - 3),
             buffer := 0xA5 / 2 ^ (8 - 3) },
            (5 + 0xA5 * 2 ^ 3) % 2 ^ 8)) ∧
      (8 ≤ 3 →
        ibstream.read 8
            { is := { words := 0xA5 :: [0x3C], fail := false }, bleft := 3, buffer := 5 } 8 =
          ({ is := { words := 0xA5 :: [0x3C], fail := false }, bleft := 3 - 8,
             buffer := 5 / 2 ^ 8 },
            5 % 2 ^ 8))) :=
  ⟨by decide, reader_refill_step 8 0xA5 [0x3C] 3 5 8 (by decide) (by decide) (by decide)
    (by decide) (by decide)⟩

/-- C18, writer bookkeeping: after any sequence of `write(v_i, len_i)` with
`len_i <= B` on a fresh writer, `n` being the sum of the `len_i`, the writer
has emitted exactly `floor(n / B)` words and `boff` is `n mod B`; after a
following `close()` it has emitted exactly `ceil(n / B)` words in total. -/
theorem writer_bookkeeping (bword : Nat) (ps : List (Nat × Nat)) (hB0 : 0 < bword)
    (hB : bword ≤ 2 ^ 63) (hlen : ∀ p ∈ ps, p.2 ≤ bword) :
    (obstream.mk0.write_all bword ps).os.length = (ps.map Prod.snd).sum / bword ∧
      (obstream.mk0.write_all bword ps).boff = (ps.map Prod.snd).sum % bword ∧
      ((obstream.mk0.write_all bword ps).close).os.length =
        ((ps.map Prod.snd).sum + bword - 1) / bword := by
  have hinv := write_all_inv hB ps _ (mk0_inv hB0) hlen
  have hbits := write_all_bits hB ps _ (mk0_inv hB0) hlen
  have hb0 : obstream.mk0.bits bword = 0 := by simp [obstream.bits, obstream.mk0]
  rw [hb0, Nat.zero_add] at hbits
  simp only [obstream.bits] at hbits
  have hoff := hinv.1
  generalize obstream.mk0.write_all bword ps = s at hbits hoff
  rw [← hbits]
  refine ⟨?_, ?_, ?_⟩
  · rw [Nat.mul_add_div hB0, Nat.div_eq_of_lt hoff, Nat.add_zero]
  · rw [Nat.mul_add_mod, Nat.mod_eq_of_lt hoff]
  · unfold obstream.close obstream.align
    by_cases h : 0 < s.boff
    · rw [if_pos h]
      have e : bword * s.os.length + s.boff + bword - 1 =
          bword * (s.os.length + 1) + (s.boff - 1) := by
        rw [Nat.mul_add, Nat.mul_one]; omega
      rw [e, Nat.mul_add_div hB0, Nat.div_eq_of_lt (by omega)]
      simp
    · rw [if_neg h]
      have e : bword * s.os.length + s.boff + bword - 1 =
          bword * s.os.length + (bword - 1) := by omega
      rw [e, Nat.mul_add_div hB0, Nat.div_eq_of_lt (by omega)]
      simp

/-- Witness for C18 with `B = 8`: 3 + 8 + 2 = 13 bits give one emitted word,
offset 5, and two words after `close()`. -/
theorem writer_bookkeeping_witness :
    (obstream.mk0.write_all 8 [(5, 3), (0xAB, 8), (1, 2)]).os.length =
        ([(5, 3), (0xAB, 8), (1, 2)].map Prod.snd).sum / 8 ∧
      (obstream.mk0.write_all 8 [(5, 3), (0xAB, 8), (1, 2)]).boff =
        ([(5, 3), (0xAB, 8), (1, 2)].map Prod.snd).sum % 8 ∧
      ((obstream.mk0.write_all 8 [(5, 3), (0xAB, 8), (1, 2)]).close).os.length =
        (([(5, 3), (0xAB, 8), (1, 2)].map Prod.snd).sum + 8 - 1) / 8 :=
  writer_bookkeeping 8 [(5, 3), (0xAB, 8), (1, 2)] (by decide) (by decide) (by decide)

/-- C20, zero-length operations are no-ops: for every writer state with
`boff < B` and every `v`, `write(v, 0)` returns the state as it was, so no word
is emitted and `boff` and `buffer` are unchanged; for every reader state,
`read(0)` returns 0 and the state as it was, so no word is consumed and `bleft`
and `buffer` are unchanged. -/
theorem zero_length_noop (bword : Nat) (s : obstream) (v : Nat) (r : ibstream)
    (hB0 : 0 < bword) (hB : bword ≤ 2 ^ 63) (hoff : s.boff < bword)
    (hbuf : s.buffer < 2 ^ bword) (hbl : r.bleft < 2 ^ 64) :
    s.write bword v 0 = s ∧ r.read bword 0 = (r, 0) := by
  have hm : bitmask bword 0 = 0 := by
    unfold bitmask
    rw [if_neg (by omega)]
    rfl
  have h1 : size_t_add s.boff 0 = s.boff := by
    rw [size_t_add_eq (by omega)]; rfl
  have h2 : size_t_sub r.bleft 0 = r.bleft := size_t_sub_eq (Nat.zero_le _) hbl
  have h3 : rshift bword r.buffer 0 = r.buffer := by
    unfold rshift
    rw [if_neg (by omega)]
    rfl
  constructor
  · simp [obstream.write, hm, h1, not_le.mpr hoff, Nat.mod_eq_of_lt hbuf]
  · simp [ibstream.read, hm, h2, h3]

/-- Witness for C20 with `B = 8`: a writer at offset 5 and a reader holding 3
bits. -/
theorem zero_length_noop_witness :
    obstream.write 8 (obstream.mk [0x42] 5 0x1D) 0xFF 0 = obstream.mk [0x42] 5 0x1D ∧
      ibstream.read 8 (ibstream.mk (istream.mk [0xA5] false) 3 0x5) 0 =
        (ibstream.mk (istream.mk [0xA5] false) 3 0x5, 0) :=
  zero_length_noop 8 (obstream.mk [0x42] 5 0x1D) 0xFF (ibstream.mk (istream.mk [0xA5] false) 3 0x5)
    (by decide) (by decide) (by decide) (by decide) (by decide)

/-! ## Counting the words a sequence of `read` takes from the source -/

theorem read_words (bword : Nat) (r : ibstream) (len : Nat)
    (hfw : r.is.fail = true → r.is.words = []) :
    (r.read bword len).1.is.words = (if r.bleft < len then r.is.words.drop 1 else r.is.words) ∧
      ((r.read bword len).1.is.fail = true → (r.read bword len).1.is.words = []) := by
  obtain ⟨⟨words, fail⟩, bleft, buffer⟩ := r
  simp only at hfw
  by_cases hlt : bleft < len
  · cases fail with
    | true =>
      have hw : words = [] := hfw rfl
      subst hw
      simp [ibstream.read, istream.read, hlt]
    | false =>
      cases words with
      | nil => simp [ibstream.read, istream.read, hlt]
      | cons x rest => simp [ibstream.read, istream.read, hlt]
  · simp only [ibstream.read, if_neg hlt]
    exact ⟨trivial, hfw⟩

theorem read_all_count {bword : Nat} (hB : bword ≤ 2 ^ 63) (lens : List Nat) :
    ∀ r : ibstream, r.bleft < bword → (r.is.fail = true → r.is.words = []) →
      (∀ l ∈ lens, l ≤ bword) →
      ∃ c, (r.read_all bword lens).1.is.words = r.is.words.drop c ∧
        (r.read_all bword lens).1.bleft + lens.sum = r.bleft + c * bword ∧
        (r.read_all bword lens).1.bleft < bword := by
  induction lens with
  | nil =>
    intro r hoff _ _
    exact ⟨0, by simp [ibstream.read_all], by simp [ibstream.read_all], hoff⟩
  | cons len ls ih =>
    intro r hoff hfw hlens
    have hlen : len ≤ bword := hlens len (List.mem_cons_self _ _)
    obtain ⟨hw, hfw1⟩ := read_words bword r len hfw
    have hbl := read_bleft r hB hoff hlen
    have hoff1 : (r.read bword len).1.bleft < bword := by
      rw [hbl]; split <;> omega
    obtain ⟨c, i1, i2, i3⟩ := ih (r.read bword len).1 hoff1 hfw1
      (fun l hl => hlens l (List.mem_cons_of_mem _ hl))
    rw [read_all_cons]
    by_cases hlt : r.bleft < len
    · rw [if_pos hlt] at hw hbl
      refine ⟨c + 1, ?_, ?_, i3⟩
      · simp only
        rw [i1, hw, List.drop_drop, Nat.add_comm]
      · simp only [List.sum_cons]
        rw [hbl] at i2
        rw [Nat.add_mul, Nat.one_mul]
        omega
    · rw [if_neg hlt] at hw hbl
      refine ⟨c, ?_, ?_, i3⟩
      · simp only
        rw [i1, hw]
      · simp only [List.sum_cons]
        rw [hbl] at i2
        omega

/-- C19, no read-ahead: after any sequence of `read(len_i)` with `len_i <= B`
on a fresh reader, with no `align()` in between and `n` the sum of the `len_i`,
the source has lost exactly its first `ceil(n / B)` words (all of them when it
holds fewer) and `bleft` equals `ceil(n / B) * B - n`; and a `read(len)` with
`len <= bleft` leaves the source untouched, so a word is fetched only by a read
whose `len` exceeds the bits currently buffered. -/
theorem no_read_ahead (bword : Nat) (ws lens : List Nat) (r : ibstream) (len : Nat)
    (hB0 : 0 < bword) (hB : bword ≤ 2 ^ 63) (hlens : ∀ l ∈ lens, l ≤ bword)
    (hle : len ≤ r.bleft) :
    ((ibstream.mk0 ws).read_all bword lens).1.is.words =
        ws.drop ((lens.sum + bword - 1) / bword) ∧
      ((ibstream.mk0 ws).read_all bword lens).1.is.words.length =
        ws.length - (lens.sum + bword - 1) / bword ∧
      ((ibstream.mk0 ws).read_all bword lens).1.bleft =
        (lens.sum + bword - 1) / bword * bword - lens.sum ∧
      (r.read bword len).1.is = r.is := by
  obtain ⟨c, h1, h2, h3⟩ := read_all_count hB lens (ibstream.mk0 ws) hB0
    (by simp [ibstream.mk0]) hlens
  have hz : (ibstream.mk0 ws).bleft = 0 := rfl
  rw [hz, Nat.zero_add] at h2
  have hc : (lens.sum + bword - 1) / bword = c := by
    apply Nat.div_eq_of_lt_le
    · omega
    · rw [Nat.succ_mul]
      omega
  rw [hc]
  refine ⟨h1, ?_, ?_, ?_⟩
  · rw [h1]
    simp [ibstream.mk0]
  · omega
  · simp only [ibstream.read, if_neg (not_lt.mpr hle)]

/-- Witness for C19 with `B = 8`: reads of 3, 8 and 2 bits, 13 in all, take two
of the three source bytes and leave 3 bits buffered. -/
theorem no_read_ahead_witness :
    ((ibstream.mk0 [0xA5, 0x3C, 0x7E]).read_all 8 [3, 8, 2]).1.is.words = [0x7E] ∧
    ((ibstream.mk0 [0xA5, 0x3C, 0x7E]).read_all 8 [3, 8, 2]).1.bleft = 3 ∧
    (((ibstream.mk0 [0xA5, 0x3C, 0x7E]).read_all 8 [3, 8, 2]).1.is.words =
        [0xA5, 0x3C, 0x7E].drop (([3, 8, 2].sum + 8 - 1) / 8) ∧
      ((ibstream.mk0 [0xA5, 0x3C, 0x7E]).read_all 8 [3, 8, 2]).1.is.words.length =
        [0xA5, 0x3C, 0x7E].length - ([3, 8, 2].sum + 8 - 1) / 8 ∧
      ((ibstream.mk0 [0xA5, 0x3C, 0x7E]).read_all 8 [3, 8, 2]).1.bleft =
        ([3, 8, 2].sum + 8 - 1) / 8 * 8 - [3, 8, 2].sum ∧
      (ibstream.read 8 (ibstream.mk (istream.mk [0x7E] false) 3 0x5) 2).1.is =
        (ibstream.mk (istream.mk [0x7E] false) 3 0x5).is) :=
  ⟨by decide, by decide, no_read_ahead 8 [0xA5, 0x3C, 0x7E] [3, 8, 2]
    (ibstream.mk (istream.mk [0x7E] false) 3 0x5) 2 (by decide) (by decide) (by decide)
    (by decide)⟩

end jellyfish
